import Mathlib

/-!
# Verification of the choropleth pipeline (`chloropleth_map_of_ireland.py`)

Shallow embedding of the data-join and classification pipeline.  Python
strings are sequences of Unicode code points and are modelled as `List ℕ`
(one entry per code point).  Numeric cell values (pandas floats) are
modelled as exact rationals `ℚ`, with the pandas missing value (`NaN`,
produced by `pd.to_numeric(..., errors="coerce")` and by unmatched rows of
a left merge) modelled as `Option ℚ` being `none`.
-/

/-- Code points of a Lean string literal, used to write concrete Python
strings in the embedding. -/
def strCodes (s : String) : List ℕ := s.data.map Char.toNat

/-- Whitespace test of Python `str.strip` (ASCII whitespace: space, tab,
newline, carriage return, vertical tab, form feed). -/
def isSpaceCode (c : ℕ) : Bool :=
  c = 32 || c = 9 || c = 10 || c = 13 || c = 11 || c = 12

/-- One code point of Python `str.lower` (ASCII case folding; the county
data is ASCII on the letters this pipeline compares). -/
def lowerCode (c : ℕ) : ℕ := if 65 ≤ c ∧ c ≤ 90 then c + 32 else c

/-- Python `str.lower`, code point by code point. -/
def pyLower (l : List ℕ) : List ℕ := l.map lowerCode

/-- Remove leading whitespace (the left half of Python `str.strip`). -/
def lstrip (l : List ℕ) : List ℕ := l.dropWhile isSpaceCode

/-- Remove trailing whitespace (the right half of Python `str.strip`). -/
def rstrip (l : List ℕ) : List ℕ := (l.reverse.dropWhile isSpaceCode).reverse

/-- Python `str.strip`: remove whitespace at both ends. -/
def pyStrip (l : List ℕ) : List ℕ := rstrip (lstrip l)

/-- Python `str.replace` for a single-code-point pattern, the only form the
source uses (it folds the right single quote and the en dash). -/
def replCode (old new : ℕ) (l : List ℕ) : List ℕ :=
  l.map (fun c => if c = old then new else c)

/-- Alias table of `norm_county_name`:
`{"kings county": "offaly", "queens county": "laois"}` applied with
`aliases.get(s0, s0)`. -/
def applyAliases (s : List ℕ) : List ℕ :=
  if s = strCodes "kings county" then strCodes "offaly"
  else if s = strCodes "queens county" then strCodes "laois"
  else s

/-- Punctuation folding, strip and lowercase step of `norm_county_name`:
`s0.replace("’", "'").replace("–", "-").strip().lower()`.  The right
single quote is code point 8217, the en dash 8211, the ASCII apostrophe 39
and the hyphen 45. -/
def foldStripLower (l : List ℕ) : List ℕ :=
  pyLower (pyStrip (replCode 8211 45 (replCode 8217 39 l)))

/-- `norm_county_name` from the source, on the string branch (`s` not
`None`): strip, drop a case-insensitive leading `"county "` (7 code
points), fold punctuation, strip, lowercase, and apply the alias table. -/
def norm_county_name (s : List ℕ) : List ℕ :=
  let t := pyStrip s
  let t := if (strCodes "county ").isPrefixOf (pyLower t) then t.drop 7 else t
  applyAliases (foldStripLower t)

/-- `norm_county_name` including the `None` guard of the source
(`if s is None: return ""`). -/
def norm_county_name_opt : Option (List ℕ) → List ℕ
  | none => []
  | some s => norm_county_name s

/-!
## Value loader (`load_wordcounts`)

A CSV is a header row plus data rows of string cells (pandas reads cells;
`pd.to_numeric(..., errors="coerce")` turns a cell into a number or `NaN`).
Column lookup builds `{c.lower(): c for c in df.columns}` and uses
`cols.get(...)`: for each lowercased name the *last* matching column wins,
located case-insensitively.
-/

/-- Tabular value source: header row and rows of string cells. -/
structure CsvTable where
  headers : List (List ℕ)
  rows : List (List (List ℕ))

/-- Index of the column selected by `cols.get(target)`: the last header
whose Python-lowercased spelling equals `target`, if any. -/
def findCol (headers : List (List ℕ)) (target : List ℕ) : Option ℕ :=
  (List.range headers.length).reverse.find?
    (fun i => pyLower (headers.getD i []) == target)

/-- Digit test for numeric coercion (code points 48–57). -/
def isDigitCode (c : ℕ) : Bool := 48 ≤ c && c ≤ 57

/-- Value of a digit string read most-significant first. -/
def digitsVal (l : List ℕ) : ℕ := l.foldl (fun a c => a * 10 + (c - 48)) 0

/-- Numeric coercion of one cell, `pd.to_numeric(cell, errors="coerce")`
for plain decimal literals: optional surrounding whitespace, optional
sign, digits with an optional fractional part.  Any other cell fails the
coercion and becomes an absent value (`none`), never an error. -/
def toNumeric (cell : List ℕ) : Option ℚ :=
  let s := pyStrip cell
  let sign : ℚ := if s.head? = some 45 then -1 else 1
  let s := if s.head? = some 45 || s.head? = some 43 then s.tail else s
  let intPart := s.takeWhile isDigitCode
  let rest := s.dropWhile isDigitCode
  match rest with
  | [] => if intPart = [] then none else some (sign * digitsVal intPart)
  | c :: frac =>
    if c = 46 ∧ frac.all isDigitCode ∧ (intPart ≠ [] ∨ frac ≠ []) then
      some (sign * ((digitsVal intPart : ℚ) + digitsVal frac / 10 ^ frac.length))
    else none

/-- One row of the value loader output: display name, coerced value and
normalized join key (`out["key"] = out["county"].apply(norm_county_name)`). -/
structure ValueRecord where
  county : List ℕ
  value : Option ℚ
  key : List ℕ
deriving DecidableEq

/-- Error raised by the loaders when a required column is absent
(`ConfigurationError` of the design; a `ValueError` in the source). -/
structure ConfigurationError where
  message : List ℕ
deriving DecidableEq

/-- Record built from one CSV row once the county column `ci` and the
value column `wi` are located. -/
def mkValueRecord (ci wi : ℕ) (r : List (List ℕ)) : ValueRecord :=
  { county := r.getD ci []
    value := toNumeric (r.getD wi [])
    key := norm_county_name (r.getD ci []) }

/-- `load_wordcounts`: locate the `County` column and the `ProseWords`
(else `Words`) column case-insensitively; raise if either is missing;
otherwise emit one record per row with the coerced value and the
normalized key. -/
def load_wordcounts (t : CsvTable) : Except ConfigurationError (List ValueRecord) :=
  match findCol t.headers (strCodes "county"),
      (findCol t.headers (strCodes "prosewords")).orElse
        (fun _ => findCol t.headers (strCodes "words")) with
  | some ci, some wi => .ok (t.rows.map (mkValueRecord ci wi))
  | _, _ =>
    .error ⟨strCodes "CSV must have County and ProseWords or Words columns."⟩

/-!
## Joiner (`merged = gdf.merge(wc[["key", "value"]], on="key", how="left")`)

A pandas left merge keeps the left (geometry) rows in order and emits one
output row per matching right (value) row; a left row with no match is
kept once with a missing value.  Two value rows sharing a key therefore
both appear, each in its own output row.
-/

/-- One feature of the geometry source after `load_geo`: display name,
geometry payload and normalized join key. -/
structure GeometryRecord (γ : Type) where
  geo_name : List ℕ
  geometry : γ
  key : List ℕ
deriving DecidableEq

/-- One row of `merged`: geometry columns plus the value column brought in
by the left merge (`none` when no value row matched or when the matched
cell failed coercion). -/
structure JoinedRecord (γ : Type) where
  geo_name : List ℕ
  geometry : γ
  key : List ℕ
  value : Option ℚ
deriving DecidableEq

/-- Pandas left merge on `key`: left rows in order; one output row per
matching right row; an unmatched left row survives once with `none`. -/
def merge_left {γ : Type} :
    List (GeometryRecord γ) → List ValueRecord → List (JoinedRecord γ)
  | [], _ => []
  | g :: gs, vs =>
    (let ms := vs.filter (fun v => decide (v.key = g.key))
     if ms.isEmpty then [⟨g.geo_name, g.geometry, g.key, none⟩]
     else ms.map (fun v => ⟨g.geo_name, g.geometry, g.key, v.value⟩)) ++
    merge_left gs vs

/-- Display names of merged rows with a missing value, in merged-row
order: `merged.loc[merged["value"].isna(), "geo_name"].tolist()`. -/
def missing_values {γ : Type} (gs : List (GeometryRecord γ))
    (vs : List ValueRecord) : List (List ℕ) :=
  ((merge_left gs vs).filter (fun r => r.value.isNone)).map (fun r => r.geo_name)

/-!
## Sorting helpers

`sorted(set(...))` in the report and `np.unique(...)` in the classifier
both produce the ascending list of distinct elements.  Both are modelled
with one insertion sort over a boolean strict order, applied after
`List.dedup`.
-/

/-- Insert `x` into `l` before the first element greater than it. -/
def insertSorted {α : Type} (lt : α → α → Bool) (x : α) : List α → List α
  | [] => [x]
  | y :: ys => if lt x y then x :: y :: ys else y :: insertSorted lt x ys

/-- Insertion sort by the strict order `lt`. -/
def insertionSort {α : Type} (lt : α → α → Bool) (l : List α) : List α :=
  l.foldr (insertSorted lt) []

/-- Ascending list of the distinct elements of `l`: the common model of
Python `sorted(set(l))` and of `np.unique(l)`. -/
def sortedDedup {α : Type} [DecidableEq α] (lt : α → α → Bool) (l : List α) :
    List α :=
  insertionSort lt l.dedup

/-- Strict lexicographic order on Python strings (code point lists). -/
def strLt : List ℕ → List ℕ → Bool
  | [], [] => false
  | [], _ :: _ => true
  | _ :: _, [] => false
  | a :: as, b :: bs => a < b || (a = b && strLt as bs)

/-- Strict order on rationals as a boolean test. -/
def ratLt (a b : ℚ) : Bool := decide (a < b)

/-- Console mismatch report,
`print(", ".join(sorted(set(missing_values))))`: the distinct display
names lacking a value, in ascending string order. -/
def mismatch_report {γ : Type} (gs : List (GeometryRecord γ))
    (vs : List ValueRecord) : List (List ℕ) :=
  sortedDedup strLt (missing_values gs vs)

/-!
## Classifier (`make_bins`)

`values` is the merged value column (with missing entries); `v` drops the
missing entries.  Quantiles follow `np.quantile` with its default linear
interpolation at position `q * (n - 1)` of the sorted data, exact over ℚ.
-/

/-- Present values of the merged value column (`values.dropna().values`). -/
def dropna (values : List (Option ℚ)) : List ℚ := values.filterMap id

/-- Sorted copy of the data, as `np.quantile` uses internally. -/
def sortQ (v : List ℚ) : List ℚ := insertionSort ratLt v

/-- Minimum of a non-empty data array (`np.min`; `0` for the empty array,
which the classifier never queries). -/
def npMin : List ℚ → ℚ
  | [] => 0
  | x :: xs => xs.foldl min x

/-- Maximum of a non-empty data array (`np.max`). -/
def npMax : List ℚ → ℚ
  | [] => 0
  | x :: xs => xs.foldl max x

/-- `np.linspace a b num`: `num` evenly spaced points from `a` to `b`. -/
def npLinspace (a b : ℚ) (num : ℕ) : List ℚ :=
  (List.range num).map (fun (i : ℕ) => a + (b - a) * (i : ℚ) / ((num - 1 : ℕ) : ℚ))

/-- `np.quantile v q` with the default linear interpolation: the value at
fractional position `q * (n - 1)` of the sorted data. -/
def npQuantile (v : List ℚ) (q : ℚ) : ℚ :=
  let s := sortQ v
  let n := s.length
  let h : ℚ := q * ((n : ℚ) - 1)
  let i : ℕ := (⌊h⌋).toNat
  let vi := s.getD i 0
  let vi1 := s.getD (i + 1) vi
  vi + (h - (i : ℚ)) * (vi1 - vi)

/-- `np.unique`: ascending distinct values. -/
def npUnique (l : List ℚ) : List ℚ := sortedDedup ratLt l

/-- Deduplicated quantile boundaries of the quantile branch:
`np.unique(np.quantile(v, np.linspace(0, 1, k + 1)))`. -/
def quantileBins (v : List ℚ) (k : ℕ) : List ℚ :=
  npUnique ((npLinspace 0 1 (k + 1)).map (npQuantile v))

/-- Linear fallback of `make_bins`: a single repeated value yields
`[min-1, min, max+1]`, else `k+1` evenly spaced boundaries. -/
def linearFallback (v : List ℚ) (k : ℕ) : Option (List ℚ) × Option String :=
  let vmin := npMin v
  let vmax := npMax v
  if vmin = vmax then (some [vmin - 1, vmin, vmax + 1], some "Linear")
  else (some (npLinspace vmin vmax (k + 1)), some "Linear")

/-- `make_bins(values, mode, k)`: drop missing values; on empty data
return `(None, None)`; in quantile mode accept the deduplicated quantile
boundaries as `"Quantiles"` when at least 3 survive; otherwise (and in
any other mode) fall back to the linear scale labelled `"Linear"`. -/
def make_bins (values : List (Option ℚ)) (mode : String) (k : ℕ) :
    Option (List ℚ) × Option String :=
  let v := dropna values
  if v.length = 0 then (none, none)
  else if mode = "quantile" then
    if 3 ≤ (quantileBins v k).length then
      (some (quantileBins v k), some "Quantiles")
    else linearFallback v k
  else linearFallback v k

/-!
## Interactive renderer colour function (`color_for`)

The colour ramp (`matplotlib`'s viridis composed with `to_hex`) is an
external function and enters the model as a parameter; `color_for` decides
the position on the ramp.  `vmin, vmax` come from the merged value column,
defaulting to `(0, 1)` when no present values exist.
-/

/-- Value range of the interactive renderer:
`(0.0, 1.0) if len(vals) == 0 else (min(vals), max(vals))`. -/
def colorDomain (vals : List ℚ) : ℚ × ℚ :=
  if vals = [] then (0, 1) else (npMin vals, npMax vals)

/-- Per-feature colour: missing values get the fixed neutral colour
`"#f0f0f0"`; present values get the ramp evaluated at `0.5` when the range
is degenerate, else at `(v - vmin) / (vmax - vmin)`. -/
def color_for (ramp : ℚ → List ℕ) (vmin vmax : ℚ) (v : Option ℚ) : List ℕ :=
  match v with
  | none => strCodes "#f0f0f0"
  | some x => ramp (if vmin = vmax then 1/2 else (x - vmin) / (vmax - vmin))

/-!
## Concrete fixtures

Small concrete inputs used by the counterexamples and witnesses below.
Keys are the normalized names the loaders would produce.
-/

/-- Geometry feature `"Offaly"` (key `"offaly"`). -/
def gOffaly : GeometryRecord Unit := ⟨strCodes "Offaly", (), strCodes "offaly"⟩

/-- Geometry feature `"Longford"` (key `"longford"`), matched by no value
row in the fixtures. -/
def gLongford : GeometryRecord Unit :=
  ⟨strCodes "Longford", (), strCodes "longford"⟩

/-- Geometry feature named `"b"`, listed before `"a"` to witness that the
report is not in geometry input order. -/
def gB : GeometryRecord Unit := ⟨strCodes "b", (), strCodes "b"⟩

/-- Geometry feature named `"a"`. -/
def gA : GeometryRecord Unit := ⟨strCodes "a", (), strCodes "a"⟩

/-- Value row `("County Offaly", 1)`; its key collides with `vOffaly2`. -/
def vOffaly1 : ValueRecord := ⟨strCodes "County Offaly", some 1, strCodes "offaly"⟩

/-- Value row `("Kings County", 2)`; the alias gives it the key
`"offaly"` as well. -/
def vOffaly2 : ValueRecord := ⟨strCodes "Kings County", some 2, strCodes "offaly"⟩

/-- Eleven values with exactly three distinct members `0, 1, 100`: the six
5-quantiles of this sample are `[0, 100, 100, 100, 100, 100]`, which
deduplicate to only two boundaries. -/
def tiedSample : List (Option ℚ) :=
  [some 0, some 1, some 100, some 100, some 100, some 100, some 100,
   some 100, some 100, some 100, some 100]

/-- Five distinct values whose six 5-quantiles are pairwise distinct. -/
def fiveSample : List (Option ℚ) := [some 1, some 2, some 3, some 4, some 5]

/-- Value source whose header has a county column but neither a
`ProseWords` nor a `Words` column. -/
def tMissing : CsvTable :=
  ⟨[strCodes "County", strCodes "PageTitle", strCodes "Error"], []⟩

/-- Well-formed value source with one row whose value cell `"abc"` fails
numeric coercion. -/
def tBadCell : CsvTable :=
  ⟨[strCodes "County", strCodes "ProseWords"],
   [[strCodes "Offaly", strCodes "abc"]]⟩

/-- Value source carrying both a `ProseWords` and a `Words` column with
different values in the single row. -/
def tBothCols : CsvTable :=
  ⟨[strCodes "County", strCodes "ProseWords", strCodes "Words"],
   [[strCodes "Offaly", strCodes "500", strCodes "700"]]⟩

/-!
## Counterexamples

Concrete runs of the embedded code refuting the claims that fail on it.
-/

/-- C1 counterexample: with one geometry feature and two value rows that
share its key, the left merge emits two joined rows, so the joined length
exceeds the geometry length — the claim that every geometry yields exactly
one joined record "even when two or more ValueRecords share the same key"
is false. -/
theorem join_length_counterexample :
    (merge_left [gOffaly] [vOffaly1, vOffaly2]).length = 2 ∧
      [gOffaly].length = 1 ∧
      (merge_left [gOffaly] [vOffaly1, vOffaly2]).length ≠
        [gOffaly].length := by
  decide

/-- C2 counterexample: two value rows with the same key and values `1`
and `2` both survive the merge, each in its own joined row; the output
does not carry only the later value `2`, refuting the last-record-wins
claim. -/
theorem join_last_wins_counterexample :
    (merge_left [gOffaly] [vOffaly1, vOffaly2]).map JoinedRecord.value =
        [some 1, some 2] ∧
      (merge_left [gOffaly] [vOffaly1, vOffaly2]).map JoinedRecord.value ≠
        [some 2] := by
  decide

/-- C3 counterexample: the normalizer is not idempotent.  For the input
`"county county a"` one pass strips a single `"county "` prefix and
returns `"county a"`, and a second pass strips again and returns `"a"`. -/
theorem norm_idempotent_counterexample :
    norm_county_name (norm_county_name (strCodes "county county a")) ≠
      norm_county_name (strCodes "county county a") := by
  decide

/-- C4 counterexample: with geometry input order `["b", "a"]` and no
value rows, the rows lacking a value are `["b", "a"]` in geometry input
order, but the printed report is the sorted deduplicated `["a", "b"]` —
the report is not in geometry input order. -/
theorem mismatch_order_counterexample :
    missing_values [gB, gA] [] = [strCodes "b", strCodes "a"] ∧
      mismatch_report [gB, gA] [] = [strCodes "a", strCodes "b"] ∧
      mismatch_report [gB, gA] [] ≠ missing_values [gB, gA] [] := by
  decide

/-- C5 counterexample: `tiedSample` holds three distinct present values
(`0`, `1`, `100`), yet the deduplicated 5-quantile boundaries of the
sample are only `[0, 100]`, so `make_bins` with the default quantile
strategy and `k = 5` falls back and returns the label `"Linear"`, not
`"Quantiles"`. -/
theorem quantile_three_distinct_counterexample :
    (dropna tiedSample).dedup = [0, 1, 100] ∧
      make_bins tiedSample "quantile" 5 =
        (some [0, 20, 40, 60, 80, 100], some "Linear") ∧
      (make_bins tiedSample "quantile" 5).2 ≠ some "Quantiles" := by
  have h1 : dropna tiedSample =
      [0, 1, 100, 100, 100, 100, 100, 100, 100, 100, 100] := by
    simp [dropna, tiedSample]
  have hs : sortQ [0, 1, 100, 100, 100, 100, 100, 100, 100, 100, (100:ℚ)] =
      [0, 1, 100, 100, 100, 100, 100, 100, 100, 100, 100] := by
    norm_num [sortQ, insertionSort, insertSorted, ratLt]
  have h2 : quantileBins [0, 1, 100, 100, 100, 100, 100, 100, 100, 100, (100:ℚ)] 5 =
      [0, 100] := by
    norm_num [quantileBins, npLinspace, List.range_succ, npQuantile, hs,
      npUnique, sortedDedup, insertionSort, insertSorted, ratLt,
      List.dedup_cons_of_mem, List.dedup_cons_of_not_mem]
    simp only [Int.reduceToNat]
    norm_num [insertSorted, ratLt,
      List.dedup_cons_of_mem, List.dedup_cons_of_not_mem]
  have h3 : linearFallback [0, 1, 100, 100, 100, 100, 100, 100, 100, 100, (100:ℚ)] 5 =
      (some [0, 20, 40, 60, 80, 100], some "Linear") := by
    norm_num [linearFallback, npMin, npMax, npLinspace, List.range_succ]
  have h4 : make_bins tiedSample "quantile" 5 =
      (some [0, 20, 40, 60, 80, 100], some "Linear") := by
    rw [make_bins, h1]
    norm_num [h2, h3]
  refine ⟨?_, h4, ?_⟩
  · rw [h1]; decide
  · rw [h4]; decide

/-!
## Sorting lemmas

Membership, distinctness and sortedness of `sortedDedup`, used by the
mismatch report and by the classifier boundaries.
-/

theorem mem_insertSorted {α : Type} (lt : α → α → Bool) (x y : α) :
    ∀ l : List α, (y ∈ insertSorted lt x l ↔ y = x ∨ y ∈ l)
  | [] => by simp [insertSorted]
  | z :: zs => by
    simp only [insertSorted]
    split
    · simp [or_comm, or_assoc, or_left_comm]
    · simp [mem_insertSorted lt x y zs]
      tauto

theorem mem_insertionSort {α : Type} (lt : α → α → Bool) (y : α) :
    ∀ l : List α, (y ∈ insertionSort lt l ↔ y ∈ l)
  | [] => by simp [insertionSort]
  | z :: zs => by
    simp only [insertionSort, List.foldr_cons]
    rw [show List.foldr (insertSorted lt) [] zs = insertionSort lt zs from rfl]
    simp [mem_insertSorted, mem_insertionSort lt y zs]

theorem nodup_insertSorted {α : Type} (lt : α → α → Bool) (x : α) :
    ∀ l : List α, x ∉ l → l.Nodup → (insertSorted lt x l).Nodup
  | [], _, _ => by simp [insertSorted]
  | z :: zs, hx, h => by
    simp only [insertSorted]
    split
    · exact List.Nodup.cons (by simpa using hx) h
    · have hz : z ∉ insertSorted lt x zs := by
        rw [mem_insertSorted]
        push_neg
        refine ⟨fun e => hx ?_, (List.nodup_cons.mp h).1⟩
        simp [e]
      exact List.Nodup.cons hz
        (nodup_insertSorted lt x zs (fun m => hx (List.mem_cons_of_mem _ m))
          (List.nodup_cons.mp h).2)

theorem nodup_insertionSort {α : Type} (lt : α → α → Bool) :
    ∀ l : List α, l.Nodup → (insertionSort lt l).Nodup
  | [], _ => by simp [insertionSort]
  | z :: zs, h => by
    have h' := List.nodup_cons.mp h
    show (insertSorted lt z (insertionSort lt zs)).Nodup
    exact nodup_insertSorted lt z _
      (fun m => h'.1 ((mem_insertionSort lt z zs).mp m))
      (nodup_insertionSort lt zs h'.2)

theorem chain_insertSorted {α : Type} (lt : α → α → Bool)
    (htot : ∀ a b : α, lt a b = false → lt b a = false → a = b) (x : α) :
    ∀ l : List α, x ∉ l → l.Chain' (fun a b => lt a b = true) →
      (insertSorted lt x l).Chain' (fun a b => lt a b = true)
  | [], _, _ => by simp [insertSorted]
  | z :: zs, hx, h => by
    simp only [insertSorted]
    split
    · next hlt => exact List.Chain'.cons hlt h
    · next hlt =>
      have hzx : lt z x = true := by
        cases e : lt z x
        · exact absurd (htot x z (by simpa using hlt) e)
            (fun q => hx (by simp [q]))
        · rfl
      have htail := chain_insertSorted lt htot x zs
        (fun m => hx (List.mem_cons_of_mem _ m)) h.tail
      rw [List.chain'_cons']
      refine ⟨?_, htail⟩
      intro b hb
      cases zs with
      | nil => simp [insertSorted] at hb; simpa [hb] using hzx
      | cons w ws =>
        simp only [insertSorted] at hb
        revert hb
        split
        · intro hb
          simp only [List.head?_cons, Option.mem_def, Option.some.injEq] at hb
          simpa [← hb] using hzx
        · intro hb
          simp only [List.head?_cons, Option.mem_def, Option.some.injEq] at hb
          have := List.chain'_cons.mp h
          simpa [← hb] using this.1

theorem chain_insertionSort {α : Type} (lt : α → α → Bool)
    (htot : ∀ a b : α, lt a b = false → lt b a = false → a = b) :
    ∀ l : List α, l.Nodup →
      (insertionSort lt l).Chain' (fun a b => lt a b = true)
  | [], _ => by simp [insertionSort]
  | z :: zs, h => by
    have h' := List.nodup_cons.mp h
    show (insertSorted lt z (insertionSort lt zs)).Chain' _
    exact chain_insertSorted lt htot z _
      (fun m => h'.1 ((mem_insertionSort lt z zs).mp m))
      (chain_insertionSort lt htot zs h'.2)

theorem mem_sortedDedup {α : Type} [DecidableEq α] (lt : α → α → Bool)
    (l : List α) (y : α) : y ∈ sortedDedup lt l ↔ y ∈ l := by
  rw [sortedDedup, mem_insertionSort, List.mem_dedup]

theorem nodup_sortedDedup {α : Type} [DecidableEq α] (lt : α → α → Bool)
    (l : List α) : (sortedDedup lt l).Nodup :=
  nodup_insertionSort lt _ l.nodup_dedup

theorem chain_sortedDedup {α : Type} [DecidableEq α] (lt : α → α → Bool)
    (htot : ∀ a b : α, lt a b = false → lt b a = false → a = b)
    (l : List α) : (sortedDedup lt l).Chain' (fun a b => lt a b = true) :=
  chain_insertionSort lt htot _ l.nodup_dedup

theorem strLt_total : ∀ a b : List ℕ, strLt a b = false → strLt b a = false →
    a = b
  | [], [] => by simp
  | [], _ :: _ => by simp [strLt]
  | _ :: _, [] => by simp [strLt]
  | a :: as, b :: bs => by
    simp only [strLt, Bool.or_eq_false_iff, Bool.and_eq_false_iff,
      decide_eq_false_iff_not]
    intro h1 h2
    have hab : a = b := by omega
    subst hab
    have := strLt_total as bs (by tauto) (by tauto)
    simp [this]

theorem ratLt_total : ∀ a b : ℚ, ratLt a b = false → ratLt b a = false →
    a = b := by
  intro a b h1 h2
  simp only [ratLt, decide_eq_false_iff_not, not_lt] at h1 h2
  exact le_antisymm h2 h1

/-!
## Joiner and report theorems
-/

/-- C4 (amended): the mismatch report lists exactly the geometry regions
lacking a value — each name appears in the report iff some joined row with
that display name has a missing value — but each name appears once and the
report is in ascending string order (Python `sorted(set(...))`), not in
geometry input order; producing it is a total function and aborts
nothing. -/
theorem mismatch_report_sorted_complete {γ : Type}
    (gs : List (GeometryRecord γ)) (vs : List ValueRecord) :
    (∀ n, n ∈ mismatch_report gs vs ↔ n ∈ missing_values gs vs) ∧
      (mismatch_report gs vs).Nodup ∧
      (mismatch_report gs vs).Chain' (fun a b => strLt a b = true) :=
  ⟨fun n => mem_sortedDedup strLt _ n,
   nodup_sortedDedup strLt _,
   chain_sortedDedup strLt strLt_total _⟩

/-- C1 (amended): the joined length equals the geometry length whenever no
geometry key is matched by two or more value rows (in particular whenever
the value-side keys are distinct); with duplicate matching keys the left
merge emits one row per matching value row and the length grows. -/
theorem join_length_eq_of_no_duplicate_matches {γ : Type}
    (gs : List (GeometryRecord γ)) (vs : List ValueRecord)
    (h : ∀ g ∈ gs,
      (vs.filter (fun v => decide (v.key = g.key))).length ≤ 1) :
    (merge_left gs vs).length = gs.length := by
  induction gs with
  | nil => rfl
  | cons g gs ih =>
    have hg := h g (List.mem_cons_self g gs)
    have ih' := ih (fun g' hg' => h g' (List.mem_cons_of_mem _ hg'))
    simp only [merge_left, List.length_append, ih', List.length_cons]
    cases hms : vs.filter (fun v => decide (v.key = g.key)) with
    | nil => simp [hms]; omega
    | cons v ms' =>
      have hlen : ms'.length + 1 ≤ 1 := by
        simpa [hms] using hg
      have : ms' = [] := List.eq_nil_of_length_eq_zero (by omega)
      subst this
      simp [hms]
      omega

/-- C1 witness: two geometry features and one value row matching the
first; the hypothesis holds and the joined length is the geometry
length 2. -/
theorem join_length_eq_witness :
    (∀ g ∈ [gOffaly, gLongford],
        (([vOffaly1].filter (fun v => decide (v.key = g.key))).length ≤ 1)) ∧
      (merge_left [gOffaly, gLongford] [vOffaly1]).length =
        [gOffaly, gLongford].length :=
  ⟨by decide,
   join_length_eq_of_no_duplicate_matches [gOffaly, gLongford] [vOffaly1]
     (by decide)⟩

/-- C2 (amended): a value row whose key matches a geometry feature is
never overwritten by a later row with the same key — every matching value
row contributes its own joined row carrying its own value, so with two
rows sharing a key both values appear in the joined output rather than
only the later one. -/
theorem join_row_per_matching_value {γ : Type}
    (gs : List (GeometryRecord γ)) (vs : List ValueRecord)
    (g : GeometryRecord γ) (v : ValueRecord)
    (hg : g ∈ gs) (hv : v ∈ vs) (hk : v.key = g.key) :
    (⟨g.geo_name, g.geometry, g.key, v.value⟩ : JoinedRecord γ) ∈
      merge_left gs vs := by
  induction gs with
  | nil => cases hg
  | cons g' gs ih =>
    rcases List.mem_cons.mp hg with rfl | hg'
    · have hvm : v ∈ vs.filter (fun w => decide (w.key = g.key)) :=
        List.mem_filter.mpr ⟨hv, by simp [hk]⟩
      have hne : (vs.filter (fun w => decide (w.key = g.key))).isEmpty = false := by
        cases e : vs.filter (fun w => decide (w.key = g.key)) with
        | nil => rw [e] at hvm; cases hvm
        | cons _ _ => simp [e]
      simp only [merge_left, hne, if_neg Bool.false_ne_true, List.mem_append]
      exact Or.inl (List.mem_map.mpr ⟨v, hvm, rfl⟩)
    · exact List.mem_append.mpr (Or.inr (ih hg'))

/-- C2 witness: with value rows `vOffaly1` (value 1) and `vOffaly2`
(value 2) sharing the key of `gOffaly`, the joined output contains a row
carrying value 1 and a row carrying value 2. -/
theorem join_row_per_matching_value_witness :
    (⟨gOffaly.geo_name, gOffaly.geometry, gOffaly.key, vOffaly1.value⟩ :
        JoinedRecord Unit) ∈ merge_left [gOffaly] [vOffaly1, vOffaly2] ∧
      (⟨gOffaly.geo_name, gOffaly.geometry, gOffaly.key, vOffaly2.value⟩ :
        JoinedRecord Unit) ∈ merge_left [gOffaly] [vOffaly1, vOffaly2] :=
  ⟨join_row_per_matching_value [gOffaly] [vOffaly1, vOffaly2] gOffaly
      vOffaly1 (by decide) (by decide) (by decide),
   join_row_per_matching_value [gOffaly] [vOffaly1, vOffaly2] gOffaly
      vOffaly2 (by decide) (by decide) (by decide)⟩

/-!
## Classifier theorems
-/

theorem length_insertSorted {α : Type} (lt : α → α → Bool) (x : α) :
    ∀ l : List α, (insertSorted lt x l).length = l.length + 1
  | [] => rfl
  | z :: zs => by
    simp only [insertSorted]
    split
    · simp
    · simp [length_insertSorted lt x zs]

theorem length_insertionSort {α : Type} (lt : α → α → Bool) :
    ∀ l : List α, (insertionSort lt l).length = l.length
  | [] => rfl
  | z :: zs => by
    show (insertSorted lt z (insertionSort lt zs)).length = zs.length + 1
    rw [length_insertSorted, length_insertionSort lt zs]

/-- A nonempty `Nodup` list all of whose members equal `m` is `[m]`. -/
theorem nodup_all_eq_singleton {α : Type} {l : List α} {m : α}
    (hnd : l.Nodup) (hall : ∀ x ∈ l, x = m) (hm : m ∈ l) : l = [m] := by
  cases l with
  | nil => cases hm
  | cons a t =>
    have ha : a = m := hall a (List.mem_cons_self a t)
    subst ha
    cases t with
    | nil => rfl
    | cons b u =>
      have hb : b = a := hall b (List.mem_cons_of_mem _ (List.mem_cons_self b u))
      exact absurd (hb ▸ List.mem_cons_self b u : a ∈ b :: u)
        (List.nodup_cons.mp hnd).1

/-- `sortedDedup` of a nonempty constant list is the singleton. -/
theorem sortedDedup_const {α : Type} [DecidableEq α] (lt : α → α → Bool)
    {l : List α} {m : α} (hne : l ≠ []) (hall : ∀ x ∈ l, x = m) :
    sortedDedup lt l = [m] := by
  have hm : m ∈ l := by
    cases l with
    | nil => exact absurd rfl hne
    | cons a t => exact (hall a (List.mem_cons_self a t)) ▸ List.mem_cons_self a t
  have hd : l.dedup = [m] :=
    nodup_all_eq_singleton l.nodup_dedup
      (fun x hx => hall x (List.mem_dedup.mp hx)) (List.mem_dedup.mpr hm)
  rw [sortedDedup, hd]
  rfl

theorem foldl_min_const {m : ℚ} :
    ∀ (xs : List ℚ) (x : ℚ), x = m → (∀ y ∈ xs, y = m) →
      xs.foldl min x = m
  | [], x, hx, _ => hx
  | y :: ys, x, hx, hall => by
    have hy : y = m := hall y (List.mem_cons_self y ys)
    exact foldl_min_const ys (min x y) (by simp [hx, hy])
      (fun z hz => hall z (List.mem_cons_of_mem _ hz))

theorem foldl_max_const {m : ℚ} :
    ∀ (xs : List ℚ) (x : ℚ), x = m → (∀ y ∈ xs, y = m) →
      xs.foldl max x = m
  | [], x, hx, _ => hx
  | y :: ys, x, hx, hall => by
    have hy : y = m := hall y (List.mem_cons_self y ys)
    exact foldl_max_const ys (max x y) (by simp [hx, hy])
      (fun z hz => hall z (List.mem_cons_of_mem _ hz))

theorem npMin_const {l : List ℚ} {m : ℚ} (hne : l ≠ [])
    (hall : ∀ x ∈ l, x = m) : npMin l = m := by
  cases l with
  | nil => exact absurd rfl hne
  | cons x xs =>
    exact foldl_min_const xs x (hall x (List.mem_cons_self x xs))
      (fun y hy => hall y (List.mem_cons_of_mem _ hy))

theorem npMax_const {l : List ℚ} {m : ℚ} (hne : l ≠ [])
    (hall : ∀ x ∈ l, x = m) : npMax l = m := by
  cases l with
  | nil => exact absurd rfl hne
  | cons x xs =>
    exact foldl_max_const xs x (hall x (List.mem_cons_self x xs))
      (fun y hy => hall y (List.mem_cons_of_mem _ hy))

/-- Any quantile of a nonempty constant sample is its value. -/
theorem npQuantile_const {v : List ℚ} {m : ℚ} (hne : v ≠ [])
    (hall : ∀ x ∈ v, x = m) {q : ℚ} (h1 : q ≤ 1) :
    npQuantile v q = m := by
  have hmem : ∀ x ∈ sortQ v, x = m :=
    fun x hx => hall x ((mem_insertionSort ratLt x v).mp hx)
  have hlen : (sortQ v).length = v.length := length_insertionSort ratLt v
  have hpos : 0 < (sortQ v).length := by
    rw [hlen]
    exact List.length_pos.mpr hne
  rw [npQuantile]
  set s := sortQ v with hs
  set n := s.length with hn
  have hn1 : (1 : ℕ) ≤ n := hpos
  have hsub : (n : ℚ) - 1 = ((n - 1 : ℕ) : ℚ) := by
    push_cast [hn1]
    ring
  have hnneg : (0 : ℚ) ≤ (n : ℚ) - 1 := by
    rw [hsub]
    positivity
  have hhle : q * ((n : ℚ) - 1) ≤ (n : ℚ) - 1 :=
    mul_le_of_le_one_left hnneg h1
  have hfl : ⌊q * ((n : ℚ) - 1)⌋ ≤ (n - 1 : ℕ) :=
    calc ⌊q * ((n : ℚ) - 1)⌋ ≤ ⌊((n - 1 : ℕ) : ℚ)⌋ := by
          rw [← hsub]
          exact Int.floor_le_floor hhle
      _ = ((n - 1 : ℕ) : ℤ) := Int.floor_natCast _
  have hi : (⌊q * ((n : ℚ) - 1)⌋).toNat < n := by
    omega
  have hvi : s.getD (⌊q * ((n : ℚ) - 1)⌋).toNat 0 = m := by
    rw [List.getD_eq_getElem s 0 hi]
    exact hmem _ (List.getElem_mem hi)
  rw [hvi]
  by_cases hi1 : (⌊q * ((n : ℚ) - 1)⌋).toNat + 1 < n
  · have : s.getD ((⌊q * ((n : ℚ) - 1)⌋).toNat + 1) m = m := by
      rw [List.getD_eq_getElem s m hi1]
      exact hmem _ (List.getElem_mem hi1)
    rw [this]
    ring
  · have : s.getD ((⌊q * ((n : ℚ) - 1)⌋).toNat + 1) m = m :=
      List.getD_eq_default s m (by omega)
    rw [this]
    ring

/-- C7: when the sequence of present values is empty, `make_bins` returns
the null result `(None, None)` for every mode and every `k`, and being a
total function it raises nothing. -/
theorem make_bins_empty_none (values : List (Option ℚ)) (mode : String)
    (k : ℕ) (h : dropna values = []) :
    make_bins values mode k = (none, none) := by
  simp [make_bins, h]

/-- C7 witness: a single absent entry has no present values and yields the
null BinSet. -/
theorem make_bins_empty_none_witness :
    dropna [none] = [] ∧ make_bins [none] "quantile" 5 = (none, none) :=
  ⟨by simp [dropna], make_bins_empty_none [none] "quantile" 5 (by simp [dropna])⟩

/-- Unfolding of `make_bins` in quantile mode on non-empty data. -/
theorem make_bins_quantile_eq (values : List (Option ℚ)) (k : ℕ)
    (hne : dropna values ≠ []) :
    make_bins values "quantile" k =
      if 3 ≤ (quantileBins (dropna values) k).length then
        (some (quantileBins (dropna values) k), some "Quantiles")
      else linearFallback (dropna values) k := by
  have hlen0 : ¬ (dropna values).length = 0 := by
    simpa [List.length_eq_zero] using hne
  simp only [make_bins]
  rw [if_neg hlen0, if_true]

/-- On constant data the linear fallback degenerates to
`[m - 1, m, m + 1]`. -/
theorem linearFallback_const (v : List ℚ) (k : ℕ) (m : ℚ) (hne : v ≠ [])
    (hall : ∀ x ∈ v, x = m) :
    linearFallback v k = (some [m - 1, m, m + 1], some "Linear") := by
  simp only [linearFallback, npMin_const hne hall, npMax_const hne hall]
  rw [if_true]

/-- C6: on a non-empty value sequence whose present values all equal `m`,
the six sampled quantiles all collapse to `m`, so the quantile strategy is
rejected and `make_bins` returns the linear degenerate boundary set
`[m - 1, m, m + 1]` with label `"Linear"`. -/
theorem make_bins_constant_linear (values : List (Option ℚ)) (m : ℚ)
    (hne : dropna values ≠ [])
    (hall : ∀ x ∈ dropna values, x = m) :
    make_bins values "quantile" 5 = (some [m - 1, m, m + 1], some "Linear") := by
  have hq : ∀ q ∈ npLinspace 0 1 6, npQuantile (dropna values) q = m := by
    intro q hqmem
    rw [npLinspace] at hqmem
    obtain ⟨i, hi, rfl⟩ := List.mem_map.mp hqmem
    have hi6 : i < 6 := by simpa using hi
    have h5 : ((6 - 1 : ℕ) : ℚ) = 5 := by norm_num
    refine npQuantile_const hne hall ?_
    rw [h5]
    have hi5 : (i : ℚ) ≤ 5 := by
      have : i ≤ 5 := by omega
      exact_mod_cast this
    rw [zero_add, div_le_one (by norm_num)]
    linarith
  have hmap : (npLinspace 0 1 6).map (npQuantile (dropna values)) =
      List.replicate 6 m := by
    apply List.eq_replicate_iff.mpr
    refine ⟨?_, ?_⟩
    · simp only [npLinspace, List.length_map, List.length_range]
    · intro b hb
      obtain ⟨q, hq', rfl⟩ := List.mem_map.mp hb
      exact hq q hq'
  have hbins : quantileBins (dropna values) 5 = [m] := by
    rw [quantileBins, show (5 + 1 : ℕ) = 6 from rfl, hmap, npUnique]
    exact sortedDedup_const ratLt (by simp)
      (fun x hx => List.eq_of_mem_replicate hx)
  rw [make_bins_quantile_eq values 5 hne, hbins,
    if_neg (by norm_num), linearFallback_const _ _ _ hne hall]

/-- C6 witness: five records all valued 100 give boundaries
`[99, 100, 101]` labelled `"Linear"`. -/
theorem make_bins_constant_linear_witness :
    dropna (List.replicate 5 (some (100 : ℚ))) ≠ [] ∧
      (∀ x ∈ dropna (List.replicate 5 (some (100 : ℚ))), x = 100) ∧
      make_bins (List.replicate 5 (some (100 : ℚ))) "quantile" 5 =
        (some [99, 100, 101], some "Linear") := by
  have hall : ∀ x ∈ dropna (List.replicate 5 (some (100 : ℚ))), x = 100 := by
    intro x hx
    simp [dropna] at hx
    simpa using hx
  refine ⟨by simp [dropna], hall, ?_⟩
  rw [make_bins_constant_linear (List.replicate 5 (some (100 : ℚ))) 100
    (by simp [dropna]) hall]
  norm_num

/-- C5 (amended): `make_bins` with the default quantile strategy and
`k = 5` returns the label `"Quantiles"` together with a strictly
increasing boundary sequence of length at least 3 whenever the
deduplicated sampled quantile boundaries number at least 3; having at
least 3 distinct input values does not guarantee that (heavily tied
samples can collapse to 2 boundaries and fall back to `"Linear"`). -/
theorem make_bins_quantiles_of_enough_boundaries (values : List (Option ℚ))
    (hne : dropna values ≠ [])
    (h3 : 3 ≤ (quantileBins (dropna values) 5).length) :
    make_bins values "quantile" 5 =
        (some (quantileBins (dropna values) 5), some "Quantiles") ∧
      (quantileBins (dropna values) 5).Chain' (· < ·) ∧
      3 ≤ (quantileBins (dropna values) 5).length := by
  refine ⟨?_, ?_, h3⟩
  · rw [make_bins_quantile_eq values 5 hne, if_pos h3]
  · have hb := chain_sortedDedup ratLt ratLt_total
      ((npLinspace 0 1 (5 + 1)).map (npQuantile (dropna values)))
    refine List.Chain'.imp ?_ hb
    intro a b h
    simpa [ratLt] using h

/-- C5 witness: the sample `[1, 2, 3, 4, 5]` yields six distinct quantile
boundaries, so `make_bins` accepts them with label `"Quantiles"`. -/
theorem make_bins_quantiles_witness :
    dropna fiveSample ≠ [] ∧
      3 ≤ (quantileBins (dropna fiveSample) 5).length ∧
      make_bins fiveSample "quantile" 5 =
        (some (quantileBins (dropna fiveSample) 5), some "Quantiles") := by
  have h1 : dropna fiveSample = [1, 2, 3, 4, 5] := by
    simp [dropna, fiveSample]
  have hs : sortQ [1, 2, 3, 4, (5:ℚ)] = [1, 2, 3, 4, 5] := by
    norm_num [sortQ, insertionSort, insertSorted, ratLt]
  have h2 : quantileBins [1, 2, 3, 4, (5:ℚ)] 5 =
      [1, 9/5, 13/5, 17/5, 21/5, 5] := by
    norm_num [quantileBins, npLinspace, List.range_succ, npQuantile, hs,
      npUnique, sortedDedup, insertionSort, insertSorted, ratLt,
      List.dedup_cons_of_mem, List.dedup_cons_of_not_mem]
    simp only [Int.reduceToNat]
    norm_num [insertSorted, ratLt,
      List.dedup_cons_of_mem, List.dedup_cons_of_not_mem]
  have hne : dropna fiveSample ≠ [] := by simp [h1]
  have h3 : 3 ≤ (quantileBins (dropna fiveSample) 5).length := by
    rw [h1, h2]
    norm_num
  exact ⟨hne, h3,
    (make_bins_quantiles_of_enough_boundaries fiveSample hne h3).1⟩

/-!
## Loader and colour theorems
-/

/-- C8: the value loader raises a `ConfigurationError` whenever the header
lacks a (case-insensitive) `County` column or lacks both a `ProseWords`
and a `Words` column — so no join can be attempted — and with both
required columns present it returns records without raising, where a cell
whose numeric coercion fails yields an absent value for that record
instead of aborting the load. -/
theorem load_wordcounts_columns_spec (t : CsvTable) :
    ((findCol t.headers (strCodes "county") = none ∨
        (findCol t.headers (strCodes "prosewords")).orElse
          (fun _ => findCol t.headers (strCodes "words")) = none) →
      ∃ e, load_wordcounts t = .error e) ∧
    (∀ ci wi, findCol t.headers (strCodes "county") = some ci →
      (findCol t.headers (strCodes "prosewords")).orElse
          (fun _ => findCol t.headers (strCodes "words")) = some wi →
      load_wordcounts t = .ok (t.rows.map (mkValueRecord ci wi)) ∧
        ∀ r ∈ t.rows, toNumeric (r.getD wi []) = none →
          (mkValueRecord ci wi r).value = none) := by
  constructor
  · intro h
    cases hc : findCol t.headers (strCodes "county") with
    | none =>
      exact ⟨⟨strCodes "CSV must have County and ProseWords or Words columns."⟩,
        by simp [load_wordcounts, hc]⟩
    | some ci =>
      cases hw : (findCol t.headers (strCodes "prosewords")).orElse
          (fun _ => findCol t.headers (strCodes "words")) with
      | none =>
        exact ⟨⟨strCodes "CSV must have County and ProseWords or Words columns."⟩,
          by simp [load_wordcounts, hc, hw]⟩
      | some wi =>
        rcases h with h | h
        · exact absurd hc (by simp [h])
        · exact absurd hw (by simp [h])
  · intro ci wi hc hw
    refine ⟨by simp [load_wordcounts, hc, hw], ?_⟩
    intro r _ hr
    simp only [mkValueRecord]
    simpa using hr

/-- C8 witness: a header without any value column errors out, while a
well-formed table whose single value cell is `"abc"` loads successfully
with an absent value for that record. -/
theorem load_wordcounts_columns_witness :
    (∃ e, load_wordcounts tMissing = .error e) ∧
      load_wordcounts tBadCell = .ok (tBadCell.rows.map (mkValueRecord 0 1)) ∧
      toNumeric ((tBadCell.rows.getD 0 []).getD 1 []) = none ∧
      (mkValueRecord 0 1 (tBadCell.rows.getD 0 [])).value = none :=
  ⟨(load_wordcounts_columns_spec tMissing).1 (Or.inr (by decide)),
   ((load_wordcounts_columns_spec tBadCell).2 0 1 (by decide) (by decide)).1,
   by decide,
   ((load_wordcounts_columns_spec tBadCell).2 0 1 (by decide) (by decide)).2
     (tBadCell.rows.getD 0 []) (by decide) (by decide)⟩

/-- C9 (implicit claim): when the header carries a `ProseWords` column the
loader always reads values from it, regardless of any `Words` column; the
`Words` column is read only when `ProseWords` is absent. -/
theorem load_wordcounts_prefers_prosewords (t : CsvTable) (ci : ℕ)
    (hc : findCol t.headers (strCodes "county") = some ci) :
    (∀ wi, findCol t.headers (strCodes "prosewords") = some wi →
        load_wordcounts t = .ok (t.rows.map (mkValueRecord ci wi))) ∧
      (findCol t.headers (strCodes "prosewords") = none →
        ∀ wi, findCol t.headers (strCodes "words") = some wi →
          load_wordcounts t = .ok (t.rows.map (mkValueRecord ci wi))) := by
  constructor
  · intro wi hp
    simp [load_wordcounts, hc, hp, Option.orElse]
  · intro hp wi hw
    simp [load_wordcounts, hc, hp, hw, Option.orElse]

/-- C9 witness: with both `ProseWords` (column 1, value 500) and `Words`
(column 2, value 700) present, the loaded record carries 500 — the
`ProseWords` cell, not the `Words` cell. -/
theorem load_wordcounts_prefers_prosewords_witness :
    findCol tBothCols.headers (strCodes "prosewords") = some 1 ∧
      findCol tBothCols.headers (strCodes "words") = some 2 ∧
      load_wordcounts tBothCols =
        .ok (tBothCols.rows.map (mkValueRecord 0 1)) ∧
      (mkValueRecord 0 1 (tBothCols.rows.getD 0 [])).value = some 500 := by
  refine ⟨by decide, by decide,
    (load_wordcounts_prefers_prosewords tBothCols 0 (by decide)).1 1 (by decide),
    ?_⟩
  have hcell : (tBothCols.rows.getD 0 []).getD 1 [] = [53, 48, 48] := by decide
  have hnum : toNumeric [53, 48, 48] = some 500 := by
    norm_num [toNumeric, pyStrip, lstrip, rstrip, isSpaceCode, isDigitCode,
      digitsVal]
    exact fun h => absurd h (by decide)
  show toNumeric ((tBothCols.rows.getD 0 []).getD 1 []) = some 500
  rw [hcell, hnum]

/-- C10 (implicit claim): the per-feature colour function is total and
guarded — an absent value maps to the fixed neutral colour `"#f0f0f0"`, a
degenerate range (`vmin = vmax`) sends every present value to the ramp
midpoint `0.5` without computing `(v - vmin) / (vmax - vmin)`, and with no
present values the range defaults to `(0, 1)`. -/
theorem color_for_total_spec (ramp : ℚ → List ℕ) (vmin vmax : ℚ) :
    color_for ramp vmin vmax none = strCodes "#f0f0f0" ∧
      (∀ x : ℚ, vmin = vmax → color_for ramp vmin vmax (some x) = ramp (1/2)) ∧
      colorDomain [] = (0, 1) := by
  refine ⟨rfl, ?_, by simp [colorDomain]⟩
  intro x h
  simp [color_for, h]

/-- C10 witness: at the degenerate range `vmin = vmax = 5` a present value
3 is sent to the ramp midpoint, an absent value to the neutral colour, and
the empty domain to `(0, 1)`. -/
theorem color_for_total_witness :
    color_for (fun _ => []) 5 5 none = strCodes "#f0f0f0" ∧
      color_for (fun _ => []) 5 5 (some 3) = (fun _ : ℚ => ([] : List ℕ)) (1/2) ∧
      colorDomain [] = (0, 1) :=
  ⟨(color_for_total_spec (fun _ => []) 5 5).1,
   (color_for_total_spec (fun _ => []) 5 5).2.1 3 rfl,
   (color_for_total_spec (fun _ => []) 5 5).2.2⟩

/-!
## Normalizer theorems

The normalized output is stripped, lowercase and free of the folded
punctuation, so a second pass can only differ by stripping another
`"county "` prefix exposed by the first pass.
-/

theorem lowerCode_idem (c : ℕ) : lowerCode (lowerCode c) = lowerCode c := by
  rw [lowerCode, lowerCode]
  split
  · next h =>
    rw [if_neg (by omega)]
  · rfl

theorem isSpaceCode_lowerCode (c : ℕ) :
    isSpaceCode (lowerCode c) = isSpaceCode c := by
  rw [lowerCode]
  split
  · next h =>
    have h1 : isSpaceCode (c + 32) = false := by
      rw [isSpaceCode]
      simp only [Bool.or_eq_false_iff, decide_eq_false_iff_not]
      omega
    have h2 : isSpaceCode c = false := by
      rw [isSpaceCode]
      simp only [Bool.or_eq_false_iff, decide_eq_false_iff_not]
      omega
    rw [h1, h2]
  · rfl

theorem dropWhile_dropWhile {α : Type} (p : α → Bool) :
    ∀ l : List α, List.dropWhile p (List.dropWhile p l) = List.dropWhile p l
  | [] => rfl
  | a :: l => by
    cases hp : p a with
    | true => simp [List.dropWhile_cons, hp, dropWhile_dropWhile p l]
    | false => simp [List.dropWhile_cons, hp]

theorem dropWhile_append_single {α : Type} (p : α → Bool) (a : α)
    (ha : p a = false) :
    ∀ xs : List α, List.dropWhile p (xs ++ [a]) = List.dropWhile p xs ++ [a]
  | [] => by simp [List.dropWhile_cons, ha]
  | x :: xs => by
    cases hx : p x with
    | true => simp [List.dropWhile_cons, hx, dropWhile_append_single p a ha xs]
    | false => simp [List.dropWhile_cons, hx]

theorem lstrip_idem (l : List ℕ) : lstrip (lstrip l) = lstrip l :=
  dropWhile_dropWhile isSpaceCode l

theorem rstrip_idem (l : List ℕ) : rstrip (rstrip l) = rstrip l := by
  rw [rstrip, rstrip, List.reverse_reverse, dropWhile_dropWhile]

theorem lstrip_rstrip (m : List ℕ) (h : lstrip m = m) :
    lstrip (rstrip m) = rstrip m := by
  cases m with
  | nil => rfl
  | cons a t =>
    have ha : isSpaceCode a = false := by
      cases hp : isSpaceCode a with
      | false => rfl
      | true =>
        rw [lstrip, List.dropWhile_cons, hp, if_pos rfl] at h
        have hlen := (List.dropWhile_suffix (l := t) isSpaceCode).length_le
        have hcong := congrArg List.length h
        rw [List.length_cons] at hcong
        omega
    have hr : rstrip (a :: t) = a :: rstrip t := by
      rw [rstrip, List.reverse_cons, dropWhile_append_single _ _ ha,
        List.reverse_append]
      rfl
    rw [hr, lstrip, List.dropWhile_cons, ha]
    rfl

theorem pyStrip_idem (l : List ℕ) : pyStrip (pyStrip l) = pyStrip l := by
  rw [pyStrip, pyStrip, lstrip_rstrip (lstrip l) (lstrip_idem l), rstrip_idem]

theorem pyLower_idem (l : List ℕ) : pyLower (pyLower l) = pyLower l := by
  rw [pyLower, pyLower, List.map_map]
  exact List.map_congr_left (fun c _ => lowerCode_idem c)

theorem pyStrip_pyLower (l : List ℕ) :
    pyStrip (pyLower l) = pyLower (pyStrip l) := by
  have hd : ∀ m : List ℕ,
      List.dropWhile isSpaceCode (m.map lowerCode) =
        (List.dropWhile isSpaceCode m).map lowerCode := by
    intro m
    rw [List.dropWhile_map,
      show isSpaceCode ∘ lowerCode = isSpaceCode from
        funext isSpaceCode_lowerCode]
  rw [pyStrip, pyStrip, pyLower, lstrip, lstrip, hd, pyLower, rstrip, rstrip,
    ← List.map_reverse, hd, List.map_reverse]

theorem replCode_not_mem {c d : ℕ} {l : List ℕ} (h : c ∉ l) :
    replCode c d l = l := by
  rw [replCode]
  have he : l.map (fun x => if x = c then d else x) = l.map id :=
    List.map_congr_left (fun x hx => by
      rw [if_neg (fun e => h (by rw [← e]; exact hx))]
      rfl)
  rw [he, List.map_id]

theorem not_mem_replCode_self {c d : ℕ} (hne : c ≠ d) (l : List ℕ) :
    c ∉ replCode c d l := by
  intro hmem
  obtain ⟨x, _, hx⟩ := List.mem_map.mp hmem
  by_cases hxc : x = c
  · rw [if_pos hxc] at hx
    exact hne hx.symm
  · rw [if_neg hxc] at hx
    exact hxc hx

theorem not_mem_replCode_other {a c d : ℕ} {l : List ℕ} (hc : c ∉ l)
    (hd : c ≠ d) : c ∉ replCode a d l := by
  intro hmem
  obtain ⟨x, hxl, hx⟩ := List.mem_map.mp hmem
  by_cases hxa : x = a
  · rw [if_pos hxa] at hx
    exact hd hx.symm
  · rw [if_neg hxa] at hx
    exact hc (hx ▸ hxl)

theorem mem_of_mem_pyStrip {c : ℕ} {l : List ℕ} (h : c ∈ pyStrip l) :
    c ∈ l := by
  rw [pyStrip, rstrip] at h
  rw [List.mem_reverse] at h
  have h1 := (List.dropWhile_suffix isSpaceCode).subset h
  rw [List.mem_reverse] at h1
  exact (List.dropWhile_suffix isSpaceCode).subset h1

theorem not_mem_pyLower {y : ℕ} (hy : ∀ c, lowerCode c = y → c = y)
    {l : List ℕ} (h : y ∉ l) : y ∉ pyLower l := by
  intro hmem
  obtain ⟨x, hxl, hx⟩ := List.mem_map.mp hmem
  exact h (hy x hx ▸ hxl)

theorem lowerCode_eq_rsquo (c : ℕ) (h : lowerCode c = 8217) : c = 8217 := by
  rw [lowerCode] at h
  split at h
  · omega
  · exact h

theorem lowerCode_eq_ndash (c : ℕ) (h : lowerCode c = 8211) : c = 8211 := by
  rw [lowerCode] at h
  split at h
  · omega
  · exact h

theorem foldStripLower_strip (z : List ℕ) :
    pyStrip (foldStripLower z) = foldStripLower z := by
  rw [foldStripLower, pyStrip_pyLower, pyStrip_idem]

theorem foldStripLower_lower (z : List ℕ) :
    pyLower (foldStripLower z) = foldStripLower z := by
  rw [foldStripLower, pyLower_idem]

theorem foldStripLower_no_rsquo (z : List ℕ) : 8217 ∉ foldStripLower z := by
  rw [foldStripLower]
  refine not_mem_pyLower lowerCode_eq_rsquo (fun hmem => ?_)
  have h1 := mem_of_mem_pyStrip hmem
  exact not_mem_replCode_other (not_mem_replCode_self (by omega) z)
    (by omega) h1

theorem foldStripLower_no_ndash (z : List ℕ) : 8211 ∉ foldStripLower z := by
  rw [foldStripLower]
  refine not_mem_pyLower lowerCode_eq_ndash (fun hmem => ?_)
  exact not_mem_replCode_self (by omega) _ (mem_of_mem_pyStrip hmem)

/-- A string that is already stripped, lowercase, free of the folded
punctuation, fixed by the alias table and not starting with `"county "`
is a fixed point of the normalizer. -/
theorem norm_county_name_fix (y : List ℕ) (hstrip : pyStrip y = y)
    (hlower : pyLower y = y) (hr : 8217 ∉ y) (hn : 8211 ∉ y)
    (ha : applyAliases y = y)
    (hp : (strCodes "county ").isPrefixOf y = false) :
    norm_county_name y = y := by
  rw [norm_county_name]
  simp only [hstrip, hlower, hp, Bool.false_eq_true, if_false]
  rw [foldStripLower, replCode_not_mem hr, replCode_not_mem hn, hstrip,
    hlower, ha]

/-- C3 (amended): the normalizer is idempotent on every input whose
normalized form does not itself begin with `"county "`; when the first
pass leaves such a prefix (as for `"county county a"`), a second pass
strips it again and the results differ. -/
theorem norm_idempotent_of_no_county_head (s : List ℕ)
    (h : (strCodes "county ").isPrefixOf (norm_county_name s) = false) :
    norm_county_name (norm_county_name s) = norm_county_name s := by
  have hns : norm_county_name s =
      applyAliases (foldStripLower
        (if (strCodes "county ").isPrefixOf (pyLower (pyStrip s)) then
          (pyStrip s).drop 7 else pyStrip s)) := rfl
  set t := (if (strCodes "county ").isPrefixOf (pyLower (pyStrip s)) then
    (pyStrip s).drop 7 else pyStrip s) with ht
  by_cases h1 : foldStripLower t = strCodes "kings county"
  · have : norm_county_name s = strCodes "offaly" := by
      rw [hns, applyAliases, if_pos h1]
    rw [this]
    decide
  · by_cases h2 : foldStripLower t = strCodes "queens county"
    · have : norm_county_name s = strCodes "laois" := by
        rw [hns, applyAliases, if_neg h1, if_pos h2]
      rw [this]
      decide
    · have he : norm_county_name s = foldStripLower t := by
        rw [hns, applyAliases, if_neg h1, if_neg h2]
      rw [he] at h ⊢
      exact norm_county_name_fix _ (foldStripLower_strip t)
        (foldStripLower_lower t) (foldStripLower_no_rsquo t)
        (foldStripLower_no_ndash t)
        (by rw [applyAliases, if_neg h1, if_neg h2]) h

/-- C3 witness: `"County Offaly"` normalizes to `"offaly"`, which does not
start with `"county "`, and renormalizing returns it unchanged. -/
theorem norm_idempotent_witness :
    (strCodes "county ").isPrefixOf
        (norm_county_name (strCodes "County Offaly")) = false ∧
      norm_county_name (norm_county_name (strCodes "County Offaly")) =
        norm_county_name (strCodes "County Offaly") :=
  ⟨by decide,
   norm_idempotent_of_no_county_head (strCodes "County Offaly") (by decide)⟩
